import Mathlib

/-!
Shallow embedding of the serial-monitor program (src/main.rs) and proofs of
the specification claims about it.

Conventions of the embedding:
* Rust `char` values are modelled as `Nat` code points (`ValidCp`).
* Rust `String` contents are modelled either as the list of code points
  (for the reader task, which works `char` by `char`) or as the list of
  UTF-8 bytes (for the editor `input`, whose `cursor_pos` is a byte index).
* Byte buffers are `List Nat` with each element `< 256`.
* Channel sends are modelled as appending to a list.
-/

namespace SerialMonitor

/-- A valid Unicode scalar value: below 0x110000 and not a surrogate. -/
def ValidCp (n : Nat) : Prop := n < 0x110000 ∧ (n < 0xD800 ∨ 0xE000 ≤ n)

instance (n : Nat) : Decidable (ValidCp n) := by unfold ValidCp; infer_instance

/-- UTF-8 encoding of one code point (Rust `String` stores text this way). -/
def utf8EncodeChar (n : Nat) : List Nat :=
  if n < 0x80 then [n]
  else if n < 0x800 then [0xC0 + n / 64, 0x80 + n % 64]
  else if n < 0x10000 then
    [0xE0 + n / 4096, 0x80 + n / 64 % 64, 0x80 + n % 64]
  else
    [0xF0 + n / 262144, 0x80 + n / 4096 % 64, 0x80 + n / 64 % 64, 0x80 + n % 64]

/-- UTF-8 encoding of a sequence of code points. -/
def utf8Encode (cs : List Nat) : List Nat := (cs.map utf8EncodeChar).flatten

/-- The Unicode replacement character U+FFFD, used by `String::from_utf8_lossy`
for malformed sequences. -/
def replacementChar : Nat := 0xFFFD

/-- State of the incremental UTF-8 decoder: either between characters, or in
the middle of a multi-byte sequence still needing `k` continuation bytes,
with accumulated value `v` and the admissible range `[lo, hi]` for the next
byte (the second byte of a sequence has a lead-dependent range, per the
Rust UTF-8 validator). -/
inductive DecSt where
  | clean : DecSt
  | need (k v lo hi : Nat) : DecSt
deriving DecidableEq

/-- Process one byte as the first byte of a sequence, exactly as Rust's
UTF-8 validation classifies lead bytes (`utf8_char_width` plus the
second-byte range table). Invalid lead bytes yield one replacement char. -/
def leadStep (b : Nat) : DecSt × List Nat :=
  if b < 0x80 then (.clean, [b])
  else if b < 0xC2 then (.clean, [replacementChar])
  else if b ≤ 0xDF then (.need 1 (b - 0xC0) 0x80 0xBF, [])
  else if b ≤ 0xEF then
    (.need 2 (b - 0xE0) (if b = 0xE0 then 0xA0 else 0x80)
      (if b = 0xED then 0x9F else 0xBF), [])
  else if b ≤ 0xF4 then
    (.need 3 (b - 0xF0) (if b = 0xF0 then 0x90 else 0x80)
      (if b = 0xF4 then 0x8F else 0xBF), [])
  else (.clean, [replacementChar])

/-- Process one byte in an arbitrary decoder state.  A byte outside the
admissible continuation range ends the current (invalid) sequence with one
replacement char and is reprocessed as a lead byte — Rust's
"maximal subpart" substitution policy. -/
def contStep (st : DecSt) (b : Nat) : DecSt × List Nat :=
  match st with
  | .clean => leadStep b
  | .need k v lo hi =>
    if lo ≤ b ∧ b ≤ hi then
      if k = 1 then (.clean, [v * 64 + (b - 0x80)])
      else (.need (k - 1) (v * 64 + (b - 0x80)) 0x80 0xBF, [])
    else
      ((leadStep b).1, replacementChar :: (leadStep b).2)

/-- Run the decoder over a byte list; a truncated final sequence becomes one
replacement char, as in `String::from_utf8_lossy`. -/
def runDec (st : DecSt) : List Nat → List Nat
  | [] => match st with | .clean => [] | .need _ _ _ _ => [replacementChar]
  | b :: bs => (contStep st b).2 ++ runDec (contStep st b).1 bs

/-- Rust `String::from_utf8_lossy` on a byte chunk, as the list of decoded code
points. -/
def utf8DecodeLossy (bs : List Nat) : List Nat := runDec .clean bs

/-! ### The reader task's line assembler (src/main.rs, reader task) -/

/-- State of the reader task: `line` is the pending-line accumulator
(`let mut line = String::new()`), `sent` the lines sent on `tx_serial` so
far, in order. -/
structure ReaderState where
  line : List Nat
  sent : List (List Nat)
deriving DecidableEq

/-- One character of the reader task's inner loop:
terminators flush a non-empty pending line, other characters are appended. -/
def procChar (st : ReaderState) (c : Nat) : ReaderState :=
  if c = 10 ∨ c = 13 then
    if st.line = [] then st else { line := [], sent := st.sent ++ [st.line] }
  else
    { st with line := st.line ++ [c] }

/-- Processing of one read chunk: `String::from_utf8_lossy` then the
character loop. -/
def procChunk (st : ReaderState) (bytes : List Nat) : ReaderState :=
  (utf8DecodeLossy bytes).foldl procChar st

/-- Processing of a sequence of read chunks. -/
def procChunks (st : ReaderState) (chunks : List (List Nat)) : ReaderState :=
  chunks.foldl procChunk st

/-- Result of one `reader.read(&mut buf)` call: `ok bytes` models
`Ok(n)` delivering those bytes (possibly none), `err` a read error. -/
inductive ReadResult where
  | ok (bytes : List Nat) : ReadResult
  | err : ReadResult
deriving DecidableEq

/-- One iteration of the reader task's `loop`, returning the new state and
the backoff delay in seconds taken by that iteration (`Ok(n) if n > 0`
processes the chunk; `Ok(_) => continue`; `Err` sleeps one second). -/
def readerStep (st : ReaderState) (r : ReadResult) : ReaderState × Nat :=
  match r with
  | .ok bytes => if 0 < bytes.length then (procChunk st bytes, 0) else (st, 0)
  | .err => (st, 1)

/-! ### The session loop's state (src/main.rs, main) -/

/-- Display style of a transcript line (`ratatui` color in the source). -/
inductive LineStyle where
  | red : LineStyle
  | green : LineStyle
  | yellow : LineStyle
deriving DecidableEq

/-- One transcript line: its text (as code points) and its style. -/
structure TLine where
  text : List Nat
  style : LineStyle
deriving DecidableEq

/-- Whether `pat` occurs as a contiguous sublist of `l`
(Rust `str::contains` on the transcript path). -/
def isSubList [BEq α] (pat l : List α) : Bool :=
  (List.range (l.length + 1)).any fun i => pat.isPrefixOf (l.drop i)

/-- The marker `"ERROR"` as code points. -/
def errorMarker : List Nat := [69, 82, 82, 79, 82]

/-- The tag `"[Arduino] "` as code points. -/
def arduinoTag : List Nat := [91, 65, 114, 100, 117, 105, 110, 111, 93, 32]

/-- The constant `MAX_LINES: usize = 1000`. -/
def MAX_LINES : Nat := 1000

/-- The session loop's mutable state: the editor's `input` (UTF-8 bytes) and
byte-index `cursor_pos`, the transcript `output_lines`, the command
`history` with browsing index `history_index`, the `scroll_offset`, and the
commands sent on the outbound channel `tx_write` so far. -/
structure App where
  input : List Nat
  cursor_pos : Nat
  output_lines : List TLine
  history : List (List Nat)
  history_index : Option Nat
  scroll_offset : Nat
  outbound : List (List Nat)
deriving DecidableEq

/-- The initial session state. -/
def app0 : App :=
  { input := [], cursor_pos := 0, output_lines := [], history := [],
    history_index := none, scroll_offset := 0, outbound := [] }

/-- Push one line onto `output_lines` and enforce the memory cap: if the
length now exceeds `MAX_LINES`, `output_lines.remove(0)` and, when
`scroll_offset > 0`, `scroll_offset.saturating_sub(1)`.  This block appears
verbatim in the source on both the inbound path and the Enter path. -/
def pushCapped (st : App) (l : TLine) : App :=
  if MAX_LINES < (st.output_lines ++ [l]).length then
    { st with output_lines := (st.output_lines ++ [l]).drop 1,
              scroll_offset :=
                if 0 < st.scroll_offset then st.scroll_offset - 1
                else st.scroll_offset }
  else { st with output_lines := st.output_lines ++ [l] }

/-- The transcript line made from an inbound serial line:
`format!("[Arduino] {}", line)`, red when the text contains `"ERROR"`,
green otherwise. -/
def inboundTLine (line : List Nat) : TLine :=
  { text := arduinoTag ++ line,
    style := if isSubList errorMarker line then .red else .green }

/-- Handling of one line received on `rx_serial` (logging to the file sink is
an external side effect and is not modelled). -/
def processInbound (st : App) (line : List Nat) : App :=
  pushCapped st (inboundTLine line)

/-! ### The line editor's key handlers (src/main.rs, key-event match) -/

/-- Rust `String::is_char_boundary` on a UTF-8 byte list: the end of the
text, or a position holding a byte that is not a continuation byte. -/
def isCharBoundary (bs : List Nat) (i : Nat) : Bool :=
  i == bs.length ||
    (i < bs.length && !(0x80 ≤ bs.getD i 0 && bs.getD i 0 < 0xC0))

/-- The byte length of the UTF-8 sequence led by byte `b`. -/
def utf8Width (b : Nat) : Nat :=
  if b < 0x80 then 1 else if b < 0xE0 then 2 else if b < 0xF0 then 3 else 4

/-- Handler for `KeyCode::Char(c)`: `input.insert(cursor_pos, c); cursor_pos += 1`.
Rust `String::insert` panics (here: `none`) when `cursor_pos` is not a char
boundary of `input`; the cursor advances by one regardless of how many
bytes the character occupies. -/
def charKey (st : App) (c : Nat) : Option App :=
  if isCharBoundary st.input st.cursor_pos then
    some { st with
      input := st.input.take st.cursor_pos ++ utf8EncodeChar c
                 ++ st.input.drop st.cursor_pos,
      cursor_pos := st.cursor_pos + 1 }
  else none

/-- Handler for `KeyCode::Backspace`: if `cursor_pos > 0`, `input.remove(cursor_pos - 1);
cursor_pos -= 1`.  Rust `String::remove` panics (here: `none`) when the
index is not a char boundary or is at/after the end; it removes the whole
character starting at that byte index. -/
def backspaceKey (st : App) : Option App :=
  if st.cursor_pos = 0 then some st
  else
    let i := st.cursor_pos - 1
    if isCharBoundary st.input i ∧ i < st.input.length then
      some { st with
        input := st.input.take i
                   ++ st.input.drop (i + utf8Width (st.input.getD i 0)),
        cursor_pos := st.cursor_pos - 1 }
    else none

/-- Handler for `KeyCode::Left`: `cursor_pos = cursor_pos.saturating_sub(1)`. -/
def leftKey (st : App) : App := { st with cursor_pos := st.cursor_pos - 1 }

/-- Handler for `KeyCode::Right`: advance the cursor when `cursor_pos < input.len()`. -/
def rightKey (st : App) : App :=
  if st.cursor_pos < st.input.length then
    { st with cursor_pos := st.cursor_pos + 1 }
  else st

/-- The Unicode White_Space property, as Rust `char::is_whitespace`. -/
def isRustWhitespace (c : Nat) : Bool :=
  c == 0x09 || c == 0x0A || c == 0x0B || c == 0x0C || c == 0x0D ||
  c == 0x20 || c == 0x85 || c == 0xA0 || c == 0x1680 ||
  (0x2000 ≤ c && c ≤ 0x200A) ||
  c == 0x2028 || c == 0x2029 || c == 0x202F || c == 0x205F || c == 0x3000

/-- Rust `input.trim().is_empty()`: every character of the input is whitespace. -/
def trimIsEmpty (input : List Nat) : Bool :=
  (utf8DecodeLossy input).all isRustWhitespace

/-- The transcript line echoed for a submitted command:
`format!("> {}", input)`, yellow. -/
def submitTLine (input : List Nat) : TLine :=
  { text := [62, 32] ++ utf8DecodeLossy input, style := .yellow }

/-- Handler for `KeyCode::Enter`: when `!input.trim().is_empty()`, push the input onto
`history`, send it on `tx_write`, echo it into the transcript (with the
memory cap enforced), then clear the input and reset `history_index`;
otherwise do nothing. -/
def enterKey (st : App) : App :=
  if trimIsEmpty st.input then st
  else
    let st1 := { st with history := st.history ++ [st.input],
                         outbound := st.outbound ++ [st.input] }
    let st2 := pushCapped st1 (submitTLine st.input)
    { st2 with input := [], cursor_pos := 0, history_index := none }

/-- Handler for `KeyCode::Up`: the source computes
`history_index.map(|i| i.saturating_sub(1)).or_else(|| ...)` and, when that
yields an index, recalls that entry into the input with the cursor at
end-of-text.  When already browsing at `i` the `map` arm yields `i - 1`
(saturating); when not browsing, the `or_else` arm yields the last index of
a non-empty history and `None` (no-op) for an empty one. -/
def upKey (st : App) : App :=
  match st.history_index with
  | some i =>
      let t := st.history.getD (i - 1) []
      { st with input := t, cursor_pos := t.length,
                history_index := some (i - 1) }
  | none =>
      if st.history.isEmpty then st
      else
        let t := st.history.getD (st.history.length - 1) []
        { st with input := t, cursor_pos := t.length,
                  history_index := some (st.history.length - 1) }

/-- Handler for `KeyCode::Down`: while browsing, move to the next newer entry if one
exists, else clear the input and stop browsing; not browsing is a no-op. -/
def downKey (st : App) : App :=
  match st.history_index with
  | some i =>
      if i + 1 < st.history.length then
        let t := st.history.getD (i + 1) []
        { st with input := t, cursor_pos := t.length,
                  history_index := some (i + 1) }
      else
        { st with input := [], cursor_pos := 0, history_index := none }
  | none => st

/-- Handler for `KeyCode::PageUp`:
`scroll_offset = (scroll_offset + 3).min(output_lines.len().saturating_sub(1))`. -/
def pageUpKey (st : App) : App :=
  { st with
    scroll_offset := min (st.scroll_offset + 3) (st.output_lines.length - 1) }

/-- Handler for `KeyCode::PageDown`: `scroll_offset = scroll_offset.saturating_sub(3)`. -/
def pageDownKey (st : App) : App :=
  { st with scroll_offset := st.scroll_offset - 3 }

/-- The ScrollState invariant: `offset <= max(0, len(buffer) - 1)`
(natural-number subtraction already floors at zero). -/
def ScrollInv (st : App) : Prop :=
  st.scroll_offset ≤ st.output_lines.length - 1

instance (st : App) : Decidable (ScrollInv st) := by
  unfold ScrollInv; infer_instance

/-! ### The baud-rate validator (src/main.rs, validate_baud_rate) -/

/-- The allowed set `VALID_BAUD_RATES`. -/
def VALID_BAUD_RATES : List Nat :=
  [300, 1200, 2400, 4800, 9600, 19200, 38400, 57600, 115200]

/-- The rendering `format!("{:?}", VALID_BAUD_RATES)` of the allowed set. -/
def ratesListStr : String :=
  "[" ++ String.intercalate ", " (VALID_BAUD_RATES.map Nat.repr) ++ "]"

/-- Rust `str::parse::<u32>()`: an optional leading plus sign, then at least
one decimal digit, with the value required to fit in 32 bits. -/
def parseU32 (s : String) : Option Nat :=
  let cs := match s.toList with
    | '+' :: rest => rest
    | cs => cs
  if cs = [] then none
  else if cs.all Char.isDigit then
    let n := cs.foldl (fun a c => a * 10 + (c.toNat - 48)) 0
    if n < 2 ^ 32 then some n else none
  else none

/-- The function `validate_baud_rate`. -/
def validate_baud_rate (baud : String) : Except String Nat :=
  match parseU32 baud with
  | none => .error ("Baud rate must be a number, one of " ++ ratesListStr)
  | some b =>
      if VALID_BAUD_RATES.contains b then .ok b
      else .error ("Invalid baud rate: " ++ Nat.repr b
                     ++ ". Must be one of " ++ ratesListStr)

/-- Whether every allowed baud rate appears (in decimal) inside `msg`. -/
def listsAllRates (msg : String) : Bool :=
  VALID_BAUD_RATES.all fun r => isSubList (Nat.repr r).toList msg.toList

/-! ### Concrete states used to instantiate the theorems -/

/-- A distinguishable transcript line, used for concrete scenarios. -/
def sampleLine (i : Nat) : TLine := { text := [i], style := .green }

/-- A session whose transcript is exactly at the `MAX_LINES` cap. -/
def stFull : App :=
  { app0 with output_lines := (List.range MAX_LINES).map sampleLine }

/-- A fresh session with a two-entry history (`"a"`, then `"b"`). -/
def stHist : App := { app0 with history := [[97], [98]] }

/-- The same session after recalling the oldest history entry. -/
def stOldest : App :=
  { app0 with history := [[97], [98]], history_index := some 0,
              input := [97], cursor_pos := 1 }

/-- A session whose input is whitespace only (a space and a tab). -/
def stWhitespace : App := { app0 with input := [32, 9] }

/-- A session whose input is the text `"hi"`. -/
def stText : App := { app0 with input := [104, 105] }

/-! ## Helper lemmas -/

theorem runDec_cons (st : DecSt) (b : Nat) (bs : List Nat) :
    runDec st (b :: bs) = (contStep st b).2 ++ runDec (contStep st b).1 bs :=
  rfl

theorem contStep_clean (b : Nat) : contStep .clean b = leadStep b := rfl

theorem leadStep_ascii (b : Nat) (h : b < 0x80) :
    leadStep b = (.clean, [b]) := by
  unfold leadStep; rw [if_pos h]

theorem leadStep_lead2 (b : Nat) (h1 : 0xC2 ≤ b) (h2 : b ≤ 0xDF) :
    leadStep b = (.need 1 (b - 0xC0) 0x80 0xBF, []) := by
  unfold leadStep
  rw [if_neg (by omega), if_neg (by omega), if_pos h2]

theorem leadStep_lead3 (b : Nat) (h1 : 0xE0 ≤ b) (h2 : b ≤ 0xEF) :
    leadStep b = (.need 2 (b - 0xE0) (if b = 0xE0 then 0xA0 else 0x80)
      (if b = 0xED then 0x9F else 0xBF), []) := by
  unfold leadStep
  rw [if_neg (by omega), if_neg (by omega), if_neg (by omega), if_pos h2]

theorem leadStep_lead4 (b : Nat) (h1 : 0xF0 ≤ b) (h2 : b ≤ 0xF4) :
    leadStep b = (.need 3 (b - 0xF0) (if b = 0xF0 then 0x90 else 0x80)
      (if b = 0xF4 then 0x8F else 0xBF), []) := by
  unfold leadStep
  rw [if_neg (by omega), if_neg (by omega), if_neg (by omega),
      if_neg (by omega), if_pos h2]

theorem contStep_need_last (v lo hi b : Nat) (h1 : lo ≤ b) (h2 : b ≤ hi) :
    contStep (.need 1 v lo hi) b = (.clean, [v * 64 + (b - 0x80)]) := by
  simp [contStep, h1, h2]

theorem contStep_need_more (k v lo hi b : Nat) (h1 : lo ≤ b) (h2 : b ≤ hi)
    (hk : k ≠ 1) :
    contStep (.need k v lo hi) b =
      (.need (k - 1) (v * 64 + (b - 0x80)) 0x80 0xBF, []) := by
  simp [contStep, h1, h2, hk]

/-- Decoding a validly encoded scalar value at the head of a stream yields
that value and continues with the rest of the stream. -/
theorem runDec_clean_encodeChar (n : Nat) (bs : List Nat) (h : ValidCp n) :
    runDec .clean (utf8EncodeChar n ++ bs) = n :: runDec .clean bs := by
  obtain ⟨hlt, hsur⟩ := h
  rcases Nat.lt_or_ge n 0x80 with c1 | c1
  · have e : utf8EncodeChar n = [n] := by unfold utf8EncodeChar; rw [if_pos c1]
    rw [e, List.cons_append, List.nil_append, runDec_cons, contStep_clean,
        leadStep_ascii _ c1]
    rfl
  · rcases Nat.lt_or_ge n 0x800 with c2 | c2
    · have e : utf8EncodeChar n = [0xC0 + n / 64, 0x80 + n % 64] := by
        unfold utf8EncodeChar; rw [if_neg (by omega), if_pos c2]
      rw [e, List.cons_append, List.cons_append, List.nil_append, runDec_cons,
          contStep_clean, leadStep_lead2 _ (by omega) (by omega)]
      rw [show ((DecSt.need 1 (0xC0 + n / 64 - 0xC0) 0x80 0xBF, ([] : List Nat))).1
            = DecSt.need 1 (0xC0 + n / 64 - 0xC0) 0x80 0xBF from rfl]
      rw [List.nil_append, runDec_cons,
          contStep_need_last _ _ _ _ (by omega) (by omega)]
      simp
      omega
    · rcases Nat.lt_or_ge n 0x10000 with c3 | c3
      · have e : utf8EncodeChar n =
            [0xE0 + n / 4096, 0x80 + n / 64 % 64, 0x80 + n % 64] := by
          unfold utf8EncodeChar
          rw [if_neg (by omega), if_neg (by omega), if_pos c3]
        rw [e, List.cons_append, List.cons_append, List.cons_append,
            List.nil_append, runDec_cons, contStep_clean,
            leadStep_lead3 _ (by omega) (by omega)]
        rw [List.nil_append, runDec_cons,
            contStep_need_more _ _ _ _ _
              (by split <;> omega) (by split <;> omega) (by omega)]
        rw [List.nil_append, runDec_cons,
            contStep_need_last _ _ _ _ (by omega) (by omega)]
        simp
        omega
      · have e : utf8EncodeChar n =
            [0xF0 + n / 262144, 0x80 + n / 4096 % 64, 0x80 + n / 64 % 64,
             0x80 + n % 64] := by
          unfold utf8EncodeChar
          rw [if_neg (by omega), if_neg (by omega), if_neg (by omega)]
        rw [e, List.cons_append, List.cons_append, List.cons_append,
            List.cons_append, List.nil_append, runDec_cons, contStep_clean,
            leadStep_lead4 _ (by omega) (by omega)]
        rw [List.nil_append, runDec_cons,
            contStep_need_more _ _ _ _ _
              (by split <;> omega) (by split <;> omega) (by omega)]
        rw [List.nil_append, runDec_cons,
            contStep_need_more _ _ _ _ _ (by omega) (by omega) (by omega)]
        rw [List.nil_append, runDec_cons,
            contStep_need_last _ _ _ _ (by omega) (by omega)]
        simp
        omega

/-- Decoding a validly encoded string at the head of a stream yields its
code points and continues with the rest of the stream. -/
theorem runDec_clean_encode (cs : List Nat) (bs : List Nat)
    (h : ∀ c ∈ cs, ValidCp c) :
    runDec .clean (utf8Encode cs ++ bs) = cs ++ runDec .clean bs := by
  induction cs with
  | nil => simp [utf8Encode]
  | cons c cs ih =>
      have e : utf8Encode (c :: cs) = utf8EncodeChar c ++ utf8Encode cs := by
        simp [utf8Encode]
      rw [e, List.append_assoc,
          runDec_clean_encodeChar c _ (h c (by simp)),
          ih fun x hx => h x (by simp [hx])]
      rfl

/-- Lossy decoding is the identity on valid UTF-8. -/
theorem utf8DecodeLossy_encode (cs : List Nat) (h : ∀ c ∈ cs, ValidCp c) :
    utf8DecodeLossy (utf8Encode cs) = cs := by
  have e := runDec_clean_encode cs [] h
  rw [List.append_nil] at e
  have e2 : runDec DecSt.clean [] = [] := rfl
  rw [utf8DecodeLossy, e, e2, List.append_nil]

/-- Folding the character loop over terminator-free characters only extends
the pending line. -/
theorem foldl_procChar_no_term (cs : List Nat) (p : List Nat)
    (e : List (List Nat)) (h : ∀ c ∈ cs, c ≠ 10 ∧ c ≠ 13) :
    List.foldl procChar ⟨p, e⟩ cs = ⟨p ++ cs, e⟩ := by
  induction cs generalizing p with
  | nil => simp
  | cons c cs ih =>
      have hc := h c (by simp)
      have e1 : procChar ⟨p, e⟩ c = ⟨p ++ [c], e⟩ := by
        have : ¬(c = 10 ∨ c = 13) := by
          intro hd; rcases hd with hd | hd
          · exact hc.1 hd
          · exact hc.2 hd
        simp [procChar, this]
      rw [List.foldl_cons, e1, ih _ fun x hx => h x (by simp [hx])]
      simp

/-- Processing the encoding of a valid string as one chunk is the character
loop over its code points. -/
theorem procChunk_encode (st : ReaderState) (cs : List Nat)
    (h : ∀ c ∈ cs, ValidCp c) :
    procChunk st (utf8Encode cs) = List.foldl procChar st cs := by
  rw [procChunk, utf8DecodeLossy_encode cs h]

/-- Processing a list of chunks that are each validly encoded equals the
character loop over the concatenation of their code points. -/
theorem procChunks_encode (st : ReaderState) (css : List (List Nat))
    (h : ∀ cs ∈ css, ∀ c ∈ cs, ValidCp c) :
    procChunks st (css.map utf8Encode) =
      List.foldl procChar st css.flatten := by
  induction css generalizing st with
  | nil => simp [procChunks]
  | cons cs css ih =>
      rw [List.map_cons, procChunks, List.foldl_cons,
          procChunk_encode st cs (h cs (by simp)), List.flatten_cons,
          List.foldl_append]
      exact ih _ fun xs hxs x hx => h xs (by simp [hxs]) x hx

/-- Below the cap, `pushCapped` is a plain push. -/
theorem pushCapped_of_lt (st : App) (l : TLine)
    (h : st.output_lines.length < MAX_LINES) :
    pushCapped st l = { st with output_lines := st.output_lines ++ [l] } := by
  unfold pushCapped
  rw [if_neg
    (by simp only [List.length_append, List.length_cons, List.length_nil]
        omega)]

/-- At (or beyond) the cap, `pushCapped` pushes, drops the oldest line, and
decrements the scroll offset, saturating at zero. -/
theorem pushCapped_of_full (st : App) (l : TLine)
    (h : MAX_LINES ≤ st.output_lines.length) :
    pushCapped st l =
      { st with output_lines := (st.output_lines ++ [l]).drop 1,
                scroll_offset := st.scroll_offset - 1 } := by
  unfold pushCapped
  rw [if_pos
    (by simp only [List.length_append, List.length_cons, List.length_nil]
        omega)]
  rcases Nat.eq_zero_or_pos st.scroll_offset with h0 | h0
  · rw [if_neg (by omega), h0]
  · rw [if_pos h0]

/-- The cap invariant is preserved by one `push` plus cap enforcement. -/
theorem pushCapped_len_le (st : App) (l : TLine)
    (h : st.output_lines.length ≤ MAX_LINES) :
    (pushCapped st l).output_lines.length ≤ MAX_LINES := by
  rcases Nat.lt_or_ge st.output_lines.length MAX_LINES with hc | hc
  · rw [pushCapped_of_lt st l hc]
    simp only [List.length_append, List.length_cons, List.length_nil]
    omega
  · rw [pushCapped_of_full st l hc]
    simp only [List.length_drop, List.length_append, List.length_cons,
      List.length_nil]
    omega

/-- The capped push never touches the editor fields or the history. -/
theorem pushCapped_frame (st : App) (l : TLine) :
    (pushCapped st l).input = st.input ∧
    (pushCapped st l).cursor_pos = st.cursor_pos ∧
    (pushCapped st l).history = st.history ∧
    (pushCapped st l).history_index = st.history_index ∧
    (pushCapped st l).outbound = st.outbound := by
  unfold pushCapped
  split <;> exact ⟨rfl, rfl, rfl, rfl, rfl⟩

/-- The transcript after a sequence of appends is the suffix of the pushed
lines that fits under the cap (starting from a buffer at most at the cap). -/
theorem foldl_pushCapped_drop (tls : List TLine) (st : App)
    (h : st.output_lines.length ≤ MAX_LINES) :
    (tls.foldl pushCapped st).output_lines =
      (st.output_lines ++ tls).drop
        (st.output_lines.length + tls.length - MAX_LINES) := by
  induction tls generalizing st with
  | nil =>
      simp only [List.foldl_nil, List.append_nil, List.length_nil]
      have e0 : st.output_lines.length + 0 - MAX_LINES = 0 := by omega
      rw [e0, List.drop_zero]
  | cons l tls ih =>
      rw [List.foldl_cons]
      rcases Nat.lt_or_ge st.output_lines.length MAX_LINES with hc | hc
      · have h1 : ({ st with output_lines := st.output_lines ++ [l] }
              : App).output_lines.length ≤ MAX_LINES := by
          dsimp only
          simp only [List.length_append, List.length_cons, List.length_nil]
          omega
        rw [pushCapped_of_lt st l hc, ih _ h1]
        dsimp only
        simp only [List.append_assoc, List.singleton_append,
          List.length_append, List.length_cons, List.length_nil]
        refine congrArg (fun k => List.drop k (st.output_lines ++ l :: tls)) ?_
        omega
      · have h1 : ({ st with
              output_lines := (st.output_lines ++ [l]).drop 1,
              scroll_offset := st.scroll_offset - 1 }
              : App).output_lines.length ≤ MAX_LINES := by
          dsimp only
          simp only [List.length_drop, List.length_append, List.length_cons,
            List.length_nil]
          omega
        rw [pushCapped_of_full st l hc, ih _ h1]
        dsimp only
        have h2 : (1 : Nat) ≤ (st.output_lines ++ [l]).length := by
          simp only [List.length_append, List.length_cons, List.length_nil]
          omega
        rw [← List.drop_append_of_le_length h2, List.drop_drop]
        have e2 : (st.output_lines ++ [l]) ++ tls =
            st.output_lines ++ l :: tls := by simp
        rw [e2]
        refine congrArg (fun k => List.drop k (st.output_lines ++ l :: tls)) ?_
        simp only [List.length_drop, List.length_append, List.length_cons,
          List.length_nil]
        omega

/-- Up while browsing at `i` recalls the entry at `i - 1` (saturating). -/
theorem upKey_some (st : App) (i : Nat) (h : st.history_index = some i) :
    upKey st =
      { st with input := st.history.getD (i - 1) [],
                cursor_pos := (st.history.getD (i - 1) []).length,
                history_index := some (i - 1) } := by
  unfold upKey
  rw [h]

/-- Up from fresh input with a non-empty history recalls the last entry. -/
theorem upKey_fresh (st : App) (h : st.history_index = none)
    (hne : st.history ≠ []) :
    upKey st =
      { st with
        input := st.history.getD (st.history.length - 1) [],
        cursor_pos := (st.history.getD (st.history.length - 1) []).length,
        history_index := some (st.history.length - 1) } := by
  unfold upKey
  rw [h]
  simp only [List.isEmpty_iff]
  rw [if_neg hne]

/-- Down while browsing below the newest entry recalls the next entry. -/
theorem downKey_some_lt (st : App) (i : Nat) (h : st.history_index = some i)
    (hlt : i + 1 < st.history.length) :
    downKey st =
      { st with input := st.history.getD (i + 1) [],
                cursor_pos := (st.history.getD (i + 1) []).length,
                history_index := some (i + 1) } := by
  unfold downKey
  rw [h]
  simp only [hlt, if_pos]

/-- Down while browsing at the newest entry returns to fresh empty input. -/
theorem downKey_some_last (st : App) (i : Nat) (h : st.history_index = some i)
    (hge : ¬ i + 1 < st.history.length) :
    downKey st =
      { st with input := [], cursor_pos := 0, history_index := none } := by
  unfold downKey
  rw [h]
  simp only [hge, if_neg, if_false]

/-- Up never mutates the history log. -/
theorem upKey_history (st : App) : (upKey st).history = st.history := by
  unfold upKey
  rcases st.history_index with _ | i
  · dsimp only
    split <;> rfl
  · rfl

/-- Down never mutates the history log. -/
theorem downKey_history (st : App) : (downKey st).history = st.history := by
  unfold downKey
  rcases st.history_index with _ | i
  · rfl
  · dsimp only
    split <;> rfl

/-! ## Claim theorems -/

/-- C1 (counterexample): the logical line `"é"` (code point 0xE9, encoded as
the two bytes `C3 A9` followed by the `\n` terminator) split in the middle
of the character — chunks `[C3]` and `[A9 0A]` — yields one completed line,
but its text is two replacement characters, not the original text. -/
theorem c1_counterexample :
    [[0xC3], [0xA9, 10]].flatten = utf8Encode [0xE9] ++ [10] ∧
    (procChunks ⟨[], []⟩ [[0xC3], [0xA9, 10]]).sent
      = [[replacementChar, replacementChar]] ∧
    [[replacementChar, replacementChar]] ≠ [[0xE9]] := by
  refine ⟨by decide, by decide, by decide⟩

/-- C1 (amended): for every logical input line (non-empty, terminator-free
valid code points) and every split of its terminated byte encoding across
chunk boundaries that fall on character boundaries, feeding the chunks to
the line assembler yields exactly one completed line whose text equals the
original line's text (and an empty pending accumulator). -/
theorem c1_line_splitting (cs : List Nat) (css : List (List Nat))
    (hv : ∀ c ∈ cs, ValidCp c)
    (ht : ∀ c ∈ cs, c ≠ 10 ∧ c ≠ 13)
    (hne : cs ≠ [])
    (hsplit : css.flatten = cs ++ [10]) :
    procChunks ⟨[], []⟩ (css.map utf8Encode) = ⟨[], [cs]⟩ := by
  have hv' : ∀ xs ∈ css, ∀ c ∈ xs, ValidCp c := by
    intro xs hxs c hc
    have hmem : c ∈ css.flatten := List.mem_flatten.mpr ⟨xs, hxs, hc⟩
    rw [hsplit] at hmem
    rcases List.mem_append.mp hmem with hm | hm
    · exact hv c hm
    · have : c = 10 := by simpa using hm
      rw [this]
      exact ⟨by omega, by omega⟩
  rw [procChunks_encode _ _ hv', hsplit, List.foldl_append,
      foldl_procChar_no_term cs [] [] ht]
  have e : procChar ⟨[] ++ cs, []⟩ 10 = ⟨[], [cs]⟩ := by
    rw [List.nil_append]
    unfold procChar
    rw [if_pos (Or.inl rfl), if_neg hne]
    rfl
  simp only [List.foldl_cons, List.foldl_nil, e]

/-- C1 (witness): the line `"Hi"` split as `["H", "i\n"]`. -/
theorem c1_line_splitting_witness :
    procChunks ⟨[], []⟩ ([[72], [105, 10]].map utf8Encode)
      = ⟨[], [[72, 105]]⟩ :=
  c1_line_splitting [72, 105] [[72], [105, 10]]
    (by decide) (by decide) (by decide) (by decide)

/-- C3: `\n` and `\r` both terminate lines and flush only a non-empty
pending line: the chunk `"A\r\nB\n"` yields exactly `"A"` then `"B"`, the
chunk `"\n\n"` yields no line, and on any reader state a terminator
character flushes the pending line exactly when it is non-empty. -/
theorem c3_terminators :
    procChunk ⟨[], []⟩ [65, 13, 10, 66, 10] = ⟨[], [[65], [66]]⟩ ∧
    procChunk ⟨[], []⟩ [10, 10] = ⟨[], []⟩ ∧
    (∀ st : ReaderState,
      procChar st 10 =
        (if st.line = [] then st
         else { line := [], sent := st.sent ++ [st.line] }) ∧
      procChar st 13 =
        (if st.line = [] then st
         else { line := [], sent := st.sent ++ [st.line] })) := by
  refine ⟨by decide, by decide, fun st => ⟨?_, ?_⟩⟩ <;>
    · unfold procChar
      rw [if_pos (by omega)]

/-- C10: a zero-byte read (`Ok(0)`) emits nothing, leaves the pending-line
accumulator unchanged and takes no delay; every successful read takes no
delay; only an erroring read takes the one-second backoff, which also
leaves the state unchanged. -/
theorem c10_zero_byte_read :
    ∀ st : ReaderState,
      readerStep st (.ok []) = (st, 0) ∧
      readerStep st .err = (st, 1) ∧
      ∀ bytes : List Nat, (readerStep st (.ok bytes)).2 = 0 := by
  intro st
  refine ⟨rfl, rfl, fun bytes => ?_⟩
  show (if 0 < bytes.length then (procChunk st bytes, 0) else (st, 0)).2 = 0
  split <;> rfl

/-- C2 (code bug, evaluated at the failing input): typing the character
`'é'` (U+00E9, two UTF-8 bytes) into an empty input leaves
`cursor_pos = 1`, which is not a character boundary of the two-byte input,
and the next character insertion therefore panics (`none`), contradicting
the claim that every editing keystroke leaves the cursor on a character
boundary. -/
theorem c2_cursor_boundary_bug :
    ((charKey app0 0xE9).map fun s =>
        (s.cursor_pos, s.input.length, isCharBoundary s.input s.cursor_pos))
      = some (1, 2, false) ∧
    ((charKey app0 0xE9).bind fun s => charKey s 97) = none := by
  refine ⟨by decide, by decide⟩

/-- C4: the transcript length never exceeds `MAX_LINES`: after any sequence
of appends from the initial state, and after one append on the inbound or
the submit path from any state satisfying the cap. -/
theorem c4_cap_invariant :
    (∀ tls : List TLine,
      (tls.foldl pushCapped app0).output_lines.length ≤ MAX_LINES) ∧
    (∀ (st : App) (l : TLine), st.output_lines.length ≤ MAX_LINES →
      (pushCapped st l).output_lines.length ≤ MAX_LINES) ∧
    (∀ (st : App) (line : List Nat), st.output_lines.length ≤ MAX_LINES →
      (processInbound st line).output_lines.length ≤ MAX_LINES) ∧
    (∀ st : App, st.output_lines.length ≤ MAX_LINES →
      (enterKey st).output_lines.length ≤ MAX_LINES) := by
  have hmain : ∀ (tls : List TLine) (st : App),
      st.output_lines.length ≤ MAX_LINES →
      (tls.foldl pushCapped st).output_lines.length ≤ MAX_LINES := by
    intro tls
    induction tls with
    | nil => intro st h; exact h
    | cons l tls ih =>
        intro st h
        rw [List.foldl_cons]
        exact ih _ (pushCapped_len_le st l h)
  refine ⟨fun tls => hmain tls app0 (by decide),
          fun st l h => pushCapped_len_le st l h,
          fun st line h => pushCapped_len_le st _ h,
          fun st h => ?_⟩
  unfold enterKey
  split
  · exact h
  · exact pushCapped_len_le _ _ h

/-- C4 (witness): the hypothesis `len ≤ MAX_LINES` discharged at concrete
states. -/
theorem c4_cap_invariant_witness :
    (pushCapped app0 (sampleLine 0)).output_lines.length ≤ MAX_LINES ∧
    (processInbound app0 [65]).output_lines.length ≤ MAX_LINES ∧
    (enterKey stText).output_lines.length ≤ MAX_LINES :=
  ⟨c4_cap_invariant.2.1 app0 (sampleLine 0) (by decide),
   c4_cap_invariant.2.2.1 app0 [65] (by decide),
   c4_cap_invariant.2.2.2 stText (by decide)⟩

/-- C5: appending at capacity evicts exactly the oldest line and decrements
the scroll offset by at most one, saturating at zero; from an empty buffer,
a sequence of appends keeps exactly the lines that fit under the cap, so
1005 appends with `MAX_LINES = 1000` keep exactly the last 1000 lines
(original lines 6..1005 in order). -/
theorem c5_eviction :
    (∀ (st : App) (l : TLine), st.output_lines.length = MAX_LINES →
      pushCapped st l =
        { st with output_lines := st.output_lines.tail ++ [l],
                  scroll_offset := st.scroll_offset - 1 }) ∧
    (∀ tls : List TLine,
      (tls.foldl pushCapped app0).output_lines
        = tls.drop (tls.length - MAX_LINES)) ∧
    (((List.range 1005).map sampleLine).foldl pushCapped app0).output_lines
      = ((List.range 1005).map sampleLine).drop 5 := by
  have hfold : ∀ tls : List TLine,
      (tls.foldl pushCapped app0).output_lines
        = tls.drop (tls.length - MAX_LINES) := by
    intro tls
    have e := foldl_pushCapped_drop tls app0 (by decide)
    have e0 : app0.output_lines = ([] : List TLine) := rfl
    rw [e0, List.nil_append, List.length_nil, Nat.zero_add] at e
    exact e
  refine ⟨fun st l h => ?_, hfold, ?_⟩
  · rw [pushCapped_of_full st l (le_of_eq h.symm)]
    have hM : MAX_LINES = 1000 := rfl
    have e : (st.output_lines ++ [l]).drop 1 = st.output_lines.tail ++ [l] := by
      rw [List.drop_append_of_le_length (by omega), List.drop_one]
    rw [e]
  · rw [hfold]
    have e : ((List.range 1005).map sampleLine).length = 1005 := by
      rw [List.length_map, List.length_range]
    rw [e, show 1005 - MAX_LINES = 5 by decide]

theorem stFull_len : stFull.output_lines.length = MAX_LINES := by
  unfold stFull
  dsimp only
  rw [List.length_map, List.length_range]

/-- C5 (witness): eviction at the cap, evaluated at a concrete full
buffer. -/
theorem c5_eviction_witness :
    pushCapped stFull (sampleLine 1000) =
      { stFull with
        output_lines := stFull.output_lines.tail ++ [sampleLine 1000],
        scroll_offset := stFull.scroll_offset - 1 } :=
  c5_eviction.1 stFull (sampleLine 1000) stFull_len

/-- C7: submitting whitespace-only (or empty) input is a complete no-op;
submitting anything else appends the input to the history (unconditionally,
so duplicates are kept), sends it on the outbound channel, clears the
input, resets the cursor, and leaves history browsing. -/
theorem c7_submit :
    ∀ st : App,
      (trimIsEmpty st.input = true → enterKey st = st) ∧
      (trimIsEmpty st.input = false →
        (enterKey st).history = st.history ++ [st.input] ∧
        (enterKey st).outbound = st.outbound ++ [st.input] ∧
        (enterKey st).input = [] ∧
        (enterKey st).cursor_pos = 0 ∧
        (enterKey st).history_index = none) := by
  intro st
  constructor
  · intro h
    unfold enterKey
    rw [if_pos h]
  · intro h
    unfold enterKey
    rw [if_neg (by rw [h]; exact Bool.false_ne_true)]
    dsimp only
    have hf := pushCapped_frame
      { st with history := st.history ++ [st.input],
                outbound := st.outbound ++ [st.input] }
      (submitTLine st.input)
    exact ⟨hf.2.2.1, hf.2.2.2.2, rfl, rfl, rfl⟩

/-- C7 (witness): a whitespace-only submission (space, tab) is a no-op; a
real submission (`"hi"`) records, sends, and clears. -/
theorem c7_submit_witness :
    enterKey stWhitespace = stWhitespace ∧
    ((enterKey stText).history = stText.history ++ [stText.input] ∧
     (enterKey stText).outbound = stText.outbound ++ [stText.input] ∧
     (enterKey stText).input = [] ∧
     (enterKey stText).cursor_pos = 0 ∧
     (enterKey stText).history_index = none) :=
  ⟨(c7_submit stWhitespace).1 (by decide), (c7_submit stText).2 (by decide)⟩

/-- C8: PageUp sets the scroll offset to
`min(offset + 3, max(0, len - 1))` and PageDown to `max(offset - 3, 0)`
(natural subtraction saturates at zero); the scroll invariant
`offset <= max(0, len - 1)` is established by PageUp and preserved by
PageDown and by an append with cap-driven eviction. -/
theorem c8_scroll :
    ∀ st : App,
      (pageUpKey st).scroll_offset
        = min (st.scroll_offset + 3) (st.output_lines.length - 1) ∧
      (pageDownKey st).scroll_offset = st.scroll_offset - 3 ∧
      ScrollInv (pageUpKey st) ∧
      (ScrollInv st → ScrollInv (pageDownKey st)) ∧
      (∀ l : TLine, ScrollInv st → ScrollInv (pushCapped st l)) := by
  intro st
  refine ⟨rfl, rfl, ?_, ?_, ?_⟩
  · show min (st.scroll_offset + 3) (st.output_lines.length - 1)
        ≤ st.output_lines.length - 1
    exact Nat.min_le_right _ _
  · intro h
    show st.scroll_offset - 3 ≤ st.output_lines.length - 1
    exact Nat.le_trans (Nat.sub_le _ _) h
  · intro l h
    unfold ScrollInv at h ⊢
    rcases Nat.lt_or_ge st.output_lines.length MAX_LINES with hc | hc
    · rw [pushCapped_of_lt st l hc]
      dsimp only
      simp only [List.length_append, List.length_cons, List.length_nil]
      omega
    · rw [pushCapped_of_full st l hc]
      dsimp only
      simp only [List.length_drop, List.length_append, List.length_cons,
        List.length_nil]
      omega

/-- C8 (witness): the scroll-invariant hypotheses discharged at the initial
state. -/
theorem c8_scroll_witness :
    ScrollInv (pageDownKey app0) ∧ ScrollInv (pushCapped app0 (sampleLine 0)) :=
  ⟨(c8_scroll app0).2.2.2.1 (by decide),
   (c8_scroll app0).2.2.2.2 (sampleLine 0) (by decide)⟩

/-- C9: `validate_baud_rate` accepts `"9600"` with value 9600 and rejects
`"9601"`, any other parsed value outside the allowed set, and any
non-numeric string, in each case with a failure message that ends with —
and therefore lists — the (decimal rendering of the) allowed set of baud
rates. -/
theorem c9_validate_baud_rate :
    validate_baud_rate "9600" = Except.ok 9600 ∧
    validate_baud_rate "9601"
      = Except.error ("Invalid baud rate: 9601. Must be one of "
          ++ ratesListStr) ∧
    listsAllRates ("Invalid baud rate: 9601. Must be one of "
      ++ ratesListStr) = true ∧
    (∀ (s : String) (n : Nat), parseU32 s = some n →
      VALID_BAUD_RATES.contains n = false →
      validate_baud_rate s
        = Except.error ("Invalid baud rate: " ++ Nat.repr n
            ++ ". Must be one of " ++ ratesListStr)) ∧
    (∀ s : String, parseU32 s = none →
      validate_baud_rate s
        = Except.error ("Baud rate must be a number, one of "
            ++ ratesListStr)) ∧
    listsAllRates ratesListStr = true := by
  refine ⟨by rfl, by rfl, by decide, ?_, ?_, by decide⟩
  · intro s n hp hc
    unfold validate_baud_rate
    rw [hp]
    dsimp only
    rw [if_neg (by rw [hc]; exact Bool.false_ne_true)]
  · intro s hp
    unfold validate_baud_rate
    rw [hp]

/-- C9 (witness): the out-of-set and non-numeric hypotheses discharged at
`"123"` and `"abc"`. -/
theorem c9_validate_baud_rate_witness :
    validate_baud_rate "123"
      = Except.error ("Invalid baud rate: " ++ Nat.repr 123
          ++ ". Must be one of " ++ ratesListStr) ∧
    validate_baud_rate "abc"
      = Except.error ("Baud rate must be a number, one of "
          ++ ratesListStr) :=
  ⟨c9_validate_baud_rate.2.2.2.1 "123" 123 (by decide) (by decide),
   c9_validate_baud_rate.2.2.2.2.1 "abc" (by decide)⟩

/-- C6: from fresh input, N presses of Up (N at most the history length)
recall the N-th most recent entry with the cursor at end-of-text; a further
Up at the oldest entry is a no-op; from the oldest recalled entry, k
presses of Down recall the k-th entry from the oldest and one more Down
past the newest returns to fresh empty input with no browsing index; and
no sequence of Up/Down presses ever mutates the history log. -/
theorem c6_history_navigation :
    (∀ (st : App) (N : Nat), st.history_index = none → 1 ≤ N →
      N ≤ st.history.length →
      upKey^[N] st =
        { st with
          input := st.history.getD (st.history.length - N) [],
          cursor_pos := (st.history.getD (st.history.length - N) []).length,
          history_index := some (st.history.length - N) }) ∧
    (∀ st : App, st.history_index = some 0 →
      st.input = st.history.getD 0 [] →
      st.cursor_pos = st.input.length →
      upKey st = st) ∧
    (∀ st : App, st.history_index = some 0 →
      st.input = st.history.getD 0 [] →
      st.cursor_pos = st.input.length →
      (∀ k, k < st.history.length →
        downKey^[k] st =
          { st with
            input := st.history.getD k [],
            cursor_pos := (st.history.getD k []).length,
            history_index := some k }) ∧
      (0 < st.history.length →
        downKey^[st.history.length] st =
          { st with input := [], cursor_pos := 0,
                    history_index := none })) ∧
    (∀ (st : App) (ks : List Bool),
      (ks.foldl (fun s b => if b then upKey s else downKey s) st).history
        = st.history) := by
  have hup : ∀ (M : Nat) (st : App), st.history_index = none →
      M + 1 ≤ st.history.length →
      upKey^[M + 1] st =
        { st with
          input := st.history.getD (st.history.length - (M + 1)) [],
          cursor_pos :=
            (st.history.getD (st.history.length - (M + 1)) []).length,
          history_index := some (st.history.length - (M + 1)) } := by
    intro M
    induction M with
    | zero =>
        intro st h hle
        rw [Function.iterate_one]
        exact upKey_fresh st h (List.length_pos.mp (by omega))
    | succ M ih =>
        intro st h hle
        rw [Function.iterate_succ_apply', ih st h (by omega),
            upKey_some _ (st.history.length - (M + 1)) rfl]
        dsimp only
        have e : st.history.length - (M + 1) - 1
            = st.history.length - (M + 1 + 1) := by omega
        rw [e]
  refine ⟨?_, ?_, ?_, ?_⟩
  · intro st N h h1 h2
    obtain ⟨M, rfl⟩ : ∃ M, N = M + 1 := ⟨N - 1, by omega⟩
    exact hup M st h h2
  · intro st h0 hin hcur
    rw [upKey_some st 0 h0]
    obtain ⟨inp, cp, out, hist, hidx, so, ob⟩ := st
    dsimp only at *
    rw [hin] at hcur
    rw [h0, hin, hcur]
  · intro st h0 hin hcur
    have hwalk : ∀ k, k < st.history.length →
        downKey^[k] st =
          { st with
            input := st.history.getD k [],
            cursor_pos := (st.history.getD k []).length,
            history_index := some k } := by
      intro k
      induction k with
      | zero =>
          intro _
          rw [Function.iterate_zero_apply]
          obtain ⟨inp, cp, out, hist, hidx, so, ob⟩ := st
          dsimp only at *
          rw [hin] at hcur
          rw [h0, hin, hcur]
      | succ k ih =>
          intro hk
          rw [Function.iterate_succ_apply', ih (by omega),
              downKey_some_lt _ k rfl (by dsimp only; omega)]
    refine ⟨hwalk, fun hpos => ?_⟩
    obtain ⟨m, hm⟩ : ∃ m, st.history.length = m + 1 :=
      ⟨st.history.length - 1, by omega⟩
    rw [hm, Function.iterate_succ_apply', hwalk m (by omega),
        downKey_some_last _ m rfl (by dsimp only; omega)]
  · intro st ks
    induction ks generalizing st with
    | nil => rfl
    | cons b ks ih =>
        rw [List.foldl_cons]
        cases b
        · exact (ih _).trans (downKey_history st)
        · exact (ih _).trans (upKey_history st)

/-- C6 (witness): the navigation facts instantiated on a concrete two-entry
history. -/
theorem c6_history_navigation_witness :
    upKey^[1] stHist =
      { stHist with
        input := stHist.history.getD (stHist.history.length - 1) [],
        cursor_pos :=
          (stHist.history.getD (stHist.history.length - 1) []).length,
        history_index := some (stHist.history.length - 1) } ∧
    upKey stOldest = stOldest ∧
    downKey^[1] stOldest =
      { stOldest with
        input := stOldest.history.getD 1 [],
        cursor_pos := (stOldest.history.getD 1 []).length,
        history_index := some 1 } ∧
    downKey^[stOldest.history.length] stOldest =
      { stOldest with input := [], cursor_pos := 0,
                      history_index := none } ∧
    (([true, false, true] : List Bool).foldl
        (fun s b => if b then upKey s else downKey s) stHist).history
      = stHist.history :=
  ⟨c6_history_navigation.1 stHist 1 rfl (by decide) (by decide),
   c6_history_navigation.2.1 stOldest rfl (by decide) (by decide),
   (c6_history_navigation.2.2.1 stOldest rfl (by decide) (by decide)).1 1
     (by decide),
   (c6_history_navigation.2.2.1 stOldest rfl (by decide) (by decide)).2
     (by decide),
   c6_history_navigation.2.2.2 stHist [true, false, true]⟩

end SerialMonitor
